import Mathlib

/-
  Verification of the Titan-Flow fetch-and-admission core.

  Shallow embedding of the Rust sources:
    src/engine/normalization.rs   (URL canonicalizer query core)
    src/engine/circuit_breaker.rs (failure counter, sticky flag, slow queue)
    src/engine/rate_limiter.rs    (blacklist, 429 backoff, robots crawl-delay)
    src/network/proxy.rs          (tier escalation ladder)
    src/network/client.rs         (ban classification)
    src/engine/density.rs         (density routing)

  Modelling conventions:
  - Machine integers are Nat; 64-bit wrap-around is explicit (% 2^64).
  - Rust byte strings are `List Nat` with entries < 256; `String` is used where
    the Rust code works on `&str` line/segment structure.  String literals in
    scope are ASCII, where code points and UTF-8 bytes coincide.
  - Redis is a pure key-value state; TTLs model no clock, so a written key is
    "unexpired" for the whole of a modelled run.  Redis I/O errors are not
    modelled (every call observes the state it addresses).
  - f64 arithmetic is modelled by exact rationals.
-/

namespace TitanFlow

/-! ## Bytes and the form-urlencoded codec

Models the `url` / `form_urlencoded` crates' query handling used by
`normalize_url` (src/engine/normalization.rs): `Url::query_pairs` decodes
(`+` to space, percent-escapes to bytes) and `Serializer::append_pair`
re-encodes with the application/x-www-form-urlencoded byte serializer. -/

/-- Code points of an ASCII string, equal to its UTF-8 bytes on the ASCII
inputs used throughout. -/
def strBytes (s : String) : List Nat := s.toList.map Char.toNat

/-- Value of an ASCII hex digit, as used by the percent-decoder. -/
def hexVal (b : Nat) : Option Nat :=
  if 48 ≤ b ∧ b ≤ 57 then some (b - 48)
  else if 65 ≤ b ∧ b ≤ 70 then some (b - 55)
  else if 97 ≤ b ∧ b ≤ 102 then some (b - 87)
  else none

/-- Probes the two bytes after a `%`: two hex digits yield the decoded byte
and the remaining input; anything else is an invalid escape. -/
def escProbe : List Nat → Option (Nat × List Nat)
  | h1 :: h2 :: rest2 =>
    match hexVal h1, hexVal h2 with
    | some x, some y => some (16 * x + y, rest2)
    | _, _ => none
  | _ => none

/-- Fuelled percent-decoder (the fuel only forces structural recursion; with
fuel at least the input length it is never exhausted): `%XY` with two hex
digits becomes one byte; an invalid escape leaves `%` literal and decoding
continues with the byte right after the `%`. -/
def pdRun : Nat → List Nat → List Nat
  | _, [] => []
  | 0, _ :: _ => []
  | f + 1, b :: rest =>
    if b = 37 then
      match escProbe rest with
      | some p => p.1 :: pdRun f p.2
      | none => 37 :: pdRun f rest
    else b :: pdRun f rest

/-- Percent-decoding of the `percent-encoding` crate. -/
def percentDecode (l : List Nat) : List Nat := pdRun l.length l

/-- `+` is decoded to space before percent-decoding (form-urlencoded). -/
def plusToSpace (b : Nat) : Nat := if b = 43 then 32 else b

/-- form-urlencoded decoding of one name or value. -/
def formDecode (l : List Nat) : List Nat := percentDecode (l.map plusToSpace)

/-- Bytes the form-urlencoded serializer passes through unescaped:
alphanumerics and `*-._`. -/
def isFormSafe (b : Nat) : Bool :=
  decide (b = 42 ∨ b = 45 ∨ b = 46 ∨ b = 95 ∨
    (48 ≤ b ∧ b ≤ 57) ∨ (65 ≤ b ∧ b ≤ 90) ∨ (97 ≤ b ∧ b ≤ 122))

/-- Upper-case hex digit of a value < 16. -/
def hexDigitUpper (n : Nat) : Nat := if n < 10 then 48 + n else 55 + n

/-- form-urlencoded serialization of one byte: space to `+`, safe bytes
verbatim, all else percent-escaped. -/
def encodeByte (b : Nat) : List Nat :=
  if b = 32 then [43]
  else if isFormSafe b then [b]
  else [37, hexDigitUpper (b / 16), hexDigitUpper (b % 16)]

/-- form-urlencoded serialization of a name or value. -/
def formEncode (l : List Nat) : List Nat := l.foldr (fun b acc => encodeByte b ++ acc) []

/-- Splits at the first occurrence of `sep`, reporting whether one was found
(`str.splitn(2, sep)` shape). -/
def splitFirstAt (sep : Nat) : List Nat → List Nat × Option (List Nat)
  | [] => ([], none)
  | b :: rest =>
    if b = sep then ([], some rest)
    else
      let r := splitFirstAt sep rest
      (b :: r.1, r.2)

/-- Accumulating splitter on `&` (byte 38), keeping empty segments. -/
def splitSegsAux (acc : List Nat) : List Nat → List (List Nat)
  | [] => [acc.reverse]
  | b :: rest =>
    if b = 38 then acc.reverse :: splitSegsAux [] rest
    else splitSegsAux (b :: acc) rest

/-- All `&`-separated segments of a query string. -/
def splitSegs (l : List Nat) : List (List Nat) := splitSegsAux [] l

/-- One `name=value` segment, split at the first `=` (byte 61) and decoded;
a missing `=` yields an empty value (`form_urlencoded::parse`). -/
def parsePair (seg : List Nat) : List Nat × List Nat :=
  match splitFirstAt 61 seg with
  | (name, none) => (formDecode name, formDecode [])
  | (name, some value) => (formDecode name, formDecode value)

/-- The decoded `(name, value)` pairs of a query string; empty segments are
skipped, as in the `form_urlencoded` parser. -/
def parseQueryPairs (q : List Nat) : List (List Nat × List Nat) :=
  ((splitSegs q).filter (fun seg => !seg.isEmpty)).map parsePair

/-- One re-encoded `name=value` unit of the query serializer. -/
def serializePair (p : List Nat × List Nat) : List Nat :=
  formEncode p.1 ++ 61 :: formEncode p.2

/-- Query serializer: re-encoded pairs joined by `&`. -/
def serializePairs : List (List Nat × List Nat) → List Nat
  | [] => []
  | [p] => serializePair p
  | p :: rest => serializePair p ++ 38 :: serializePairs rest

/-! ## The query core of `normalize_url` (src/engine/normalization.rs 40-66) -/

/-- Strict byte-wise lexicographic order, the `Ord` used by
`BTreeMap<String, String>` on the decoded keys. -/
def bytesLt : List Nat → List Nat → Bool
  | [], [] => false
  | [], _ :: _ => true
  | _ :: _, [] => false
  | a :: as2, b :: bs2 => decide (a < b) || (decide (a = b) && bytesLt as2 bs2)

/-- `BTreeMap::insert` on a key-sorted association list: replaces the value
at an equal key, otherwise keeps the list sorted. -/
def insertSorted (k v : List Nat) : List (List Nat × List Nat) → List (List Nat × List Nat)
  | [] => [(k, v)]
  | (k2, v2) :: rest =>
    if bytesLt k k2 then (k, v) :: (k2, v2) :: rest
    else if k == k2 then (k, v) :: rest
    else (k2, v2) :: insertSorted k v rest

/-- ASCII lower-casing of one byte, modelling `str::to_lowercase` on the
ASCII keys relevant to the drop-set. -/
def asciiLowerByte (b : Nat) : Nat := if 65 ≤ b ∧ b ≤ 90 then b + 32 else b

/-- ASCII lower-casing of a byte string. -/
def asciiLower (l : List Nat) : List Nat := l.map asciiLowerByte

/-- The tracking-parameter drop-set of `normalize_url`. -/
def dropParams : List (List Nat) :=
  (["utm_source", "utm_medium", "utm_campaign", "utm_term", "utm_content",
    "gclid", "fbclid", "ref", "yclid", "_ga"]).map strBytes

/-- The `BTreeMap` built by `normalize_url`: decoded pairs are walked in
order, pairs with a lower-cased key in the drop-set are skipped, the rest
are inserted (an equal key overwrites). -/
def normalizeQueryPairs (q : List Nat) : List (List Nat × List Nat) :=
  (parseQueryPairs q).foldl
    (fun m p => if dropParams.contains (asciiLower p.1) then m else insertSorted p.1 p.2 m) []

/-- Query rewriting of `normalize_url`: no remaining pairs clears the query
(`set_query(None)`), otherwise the sorted map is re-serialized. -/
def normalizeQuery (q : Option (List Nat)) : Option (List Nat) :=
  let pairs := normalizeQueryPairs (q.getD [])
  if pairs.isEmpty then none else some (serializePairs pairs)

/-- The pairs of the joined URL kept by the filter (decoded, in input
order, duplicates intact): the reference point for claim C1. -/
def keptPairs (q : List Nat) : List (List Nat × List Nat) :=
  (parseQueryPairs q).filter (fun p => !(dropParams.contains (asciiLower p.1)))

/-- First value bound to `k` in an association list. -/
def assocFind (ps : List (List Nat × List Nat)) (k : List Nat) : Option (List Nat) :=
  (ps.find? (fun p => p.1 == k)).map (fun p => p.2)

/-- Last value bound to `k` in an association list (the value a
last-write-wins map retains). -/
def lastVal (ps : List (List Nat × List Nat)) (k : List Nat) : Option (List Nat) :=
  (ps.reverse.find? (fun p => p.1 == k)).map (fun p => p.2)

/-! ### Codec lemmas -/

theorem pdRun_nil (f : Nat) : pdRun f [] = [] := by cases f <;> rfl

/-- An accepted escape consumes exactly two bytes, both hex digits. -/
theorem escProbe_some (l : List Nat) (p : Nat × List Nat) (h : escProbe l = some p) :
    ∃ h1 h2 x y, l = h1 :: h2 :: p.2 ∧ hexVal h1 = some x ∧ hexVal h2 = some y ∧
      p.1 = 16 * x + y := by
  cases l with
  | nil => simp [escProbe] at h
  | cons h1 t =>
    cases t with
    | nil => simp [escProbe] at h
    | cons h2 t2 =>
      cases hx : hexVal h1 with
      | none => simp [escProbe, hx] at h
      | some x =>
        cases hy : hexVal h2 with
        | none => simp [escProbe, hx, hy] at h
        | some y =>
          simp only [escProbe, hx, hy] at h
          cases h
          exact ⟨h1, h2, x, y, rfl, hx, hy, rfl⟩

/-- The fuel does not matter once it covers the input length. -/
theorem pdRun_fuel_eq : ∀ f1 f2 l, l.length ≤ f1 → l.length ≤ f2 →
    pdRun f1 l = pdRun f2 l := by
  intro f1
  induction f1 with
  | zero =>
    intro f2 l h1 _
    have : l = [] := List.length_eq_zero.mp (Nat.le_zero.mp h1)
    subst this
    simp [pdRun_nil]
  | succ f ih =>
    intro f2 l h1 h2
    cases l with
    | nil => simp [pdRun_nil]
    | cons b rest =>
      cases f2 with
      | zero => simp at h2
      | succ f2 =>
        simp only [List.length_cons, Nat.succ_le_succ_iff] at h1 h2
        simp only [pdRun]
        by_cases hb : b = 37
        · simp only [if_pos hb]
          cases hE : escProbe rest with
          | none =>
            show 37 :: pdRun f rest = 37 :: pdRun f2 rest
            rw [ih f2 rest h1 h2]
          | some p =>
            obtain ⟨e1, e2, x, y, hleq, _, _, _⟩ := escProbe_some rest p hE
            have hlen : rest.length = p.2.length + 2 := by rw [hleq]; simp
            show p.1 :: pdRun f p.2 = p.1 :: pdRun f2 p.2
            rw [ih f2 p.2 (by omega) (by omega)]
        · simp only [if_neg hb]
          rw [ih f2 rest h1 h2]

theorem percentDecode_not37 (b : Nat) (t : List Nat) (hb : b ≠ 37) :
    percentDecode (b :: t) = b :: percentDecode t := by
  show pdRun (b :: t).length (b :: t) = b :: pdRun t.length t
  simp only [List.length_cons, pdRun, if_neg hb]

theorem percentDecode_escape (h1 h2 x y : Nat) (t : List Nat)
    (hx : hexVal h1 = some x) (hy : hexVal h2 = some y) :
    percentDecode (37 :: h1 :: h2 :: t) = (16 * x + y) :: percentDecode t := by
  show pdRun (37 :: h1 :: h2 :: t).length (37 :: h1 :: h2 :: t) = _
  simp only [List.length_cons, pdRun, if_pos rfl]
  rw [show escProbe (h1 :: h2 :: t) = some (16 * x + y, t) from by
    simp [escProbe, hx, hy]]
  show (16 * x + y) :: pdRun (t.length + 1 + 1) t = _
  rw [pdRun_fuel_eq (t.length + 1 + 1) t.length t (by omega) (by omega)]
  rfl

theorem hexVal_lt (b x : Nat) (h : hexVal b = some x) : x < 16 := by
  unfold hexVal at h
  split_ifs at h <;> simp_all <;> omega

set_option maxRecDepth 4096 in
/-- Safe bytes survive the plus-for-space substitution and never start an
escape. -/
theorem formSafe_byte_facts : ∀ b, b < 256 → isFormSafe b = true →
    plusToSpace b = b ∧ b ≠ 37 := by decide

set_option maxRecDepth 4096 in
/-- Upper-case hex digits of a byte round-trip through the decoder tables. -/
theorem hexDigit_byte_facts : ∀ b, b < 256 →
    plusToSpace (hexDigitUpper (b / 16)) = hexDigitUpper (b / 16) ∧
    plusToSpace (hexDigitUpper (b % 16)) = hexDigitUpper (b % 16) ∧
    hexVal (hexDigitUpper (b / 16)) = some (b / 16) ∧
    hexVal (hexDigitUpper (b % 16)) = some (b % 16) := by decide

/-- Decoding one serialized byte in front of any tail recovers the byte. -/
theorem percentDecode_encodeByte (b : Nat) (hb : b < 256) (t : List Nat) :
    percentDecode ((encodeByte b).map plusToSpace ++ t) = b :: percentDecode t := by
  by_cases h32 : b = 32
  · subst h32
    show percentDecode (plusToSpace 43 :: t) = 32 :: percentDecode t
    rw [show plusToSpace 43 = 32 from rfl]
    exact percentDecode_not37 32 t (by omega)
  · by_cases hs : isFormSafe b = true
    · obtain ⟨hp, h37⟩ := formSafe_byte_facts b hb hs
      have he : encodeByte b = [b] := by simp [encodeByte, h32, hs]
      rw [he]
      simp only [List.map_cons, List.map_nil, hp, List.cons_append, List.nil_append]
      exact percentDecode_not37 b t h37
    · obtain ⟨hp1, hp2, hv1, hv2⟩ := hexDigit_byte_facts b hb
      have he : encodeByte b = [37, hexDigitUpper (b / 16), hexDigitUpper (b % 16)] := by
        simp [encodeByte, h32, hs]
      rw [he]
      simp only [List.map_cons, List.map_nil, hp1, hp2, List.cons_append, List.nil_append]
      rw [show plusToSpace 37 = 37 from rfl]
      rw [percentDecode_escape _ _ _ _ t hv1 hv2]
      congr 1
      omega

theorem formEncode_cons (b : Nat) (l : List Nat) :
    formEncode (b :: l) = encodeByte b ++ formEncode l := rfl

/-- Decoding inverts encoding on byte strings. -/
theorem formDecode_formEncode (l : List Nat) (hl : ∀ b ∈ l, b < 256) :
    formDecode (formEncode l) = l := by
  induction l with
  | nil => rfl
  | cons b rest ih =>
    rw [formEncode_cons]
    show percentDecode (((encodeByte b ++ formEncode rest)).map plusToSpace) = _
    rw [List.map_append]
    rw [percentDecode_encodeByte b (hl b (by simp)) ((formEncode rest).map plusToSpace)]
    have := ih (fun c hc => hl c (by simp [hc]))
    rw [show percentDecode ((formEncode rest).map plusToSpace) = formDecode (formEncode rest) from rfl, this]

set_option maxRecDepth 4096 in
/-- Serialized bytes are never the separators `&` or `=`. -/
theorem encodeByte_no_sep : ∀ b, b < 256 → ∀ c ∈ encodeByte b, c ≠ 38 ∧ c ≠ 61 := by decide

theorem formEncode_no_sep (l : List Nat) (hl : ∀ b ∈ l, b < 256) :
    ∀ c ∈ formEncode l, c ≠ 38 ∧ c ≠ 61 := by
  induction l with
  | nil => simp [formEncode]
  | cons b rest ih =>
    intro c hc
    rw [formEncode_cons] at hc
    rcases List.mem_append.mp hc with h | h
    · exact encodeByte_no_sep b (hl b (by simp)) c h
    · exact ih (fun d hd => hl d (by simp [hd])) c h

theorem splitFirstAt_no_sep (sep : Nat) : ∀ x : List Nat, (∀ c ∈ x, c ≠ sep) →
    splitFirstAt sep x = (x, none) := by
  intro x
  induction x with
  | nil => intro _; rfl
  | cons b rest ih =>
    intro h
    simp only [splitFirstAt, if_neg (h b (by simp))]
    rw [ih (fun c hc => h c (by simp [hc]))]

theorem splitFirstAt_append (sep : Nat) : ∀ x y : List Nat, (∀ c ∈ x, c ≠ sep) →
    splitFirstAt sep (x ++ sep :: y) = (x, some y) := by
  intro x y
  induction x with
  | nil => intro _; simp [splitFirstAt]
  | cons b rest ih =>
    intro h
    simp only [List.cons_append, splitFirstAt, if_neg (h b (by simp)), List.append_eq]
    rw [ih (fun c hc => h c (by simp [hc]))]

theorem splitSegsAux_no_amp : ∀ (x : List Nat) (acc : List Nat), (∀ c ∈ x, c ≠ 38) →
    splitSegsAux acc x = [acc.reverse ++ x] := by
  intro x
  induction x with
  | nil => intro acc _; simp [splitSegsAux]
  | cons b rest ih =>
    intro acc h
    simp only [splitSegsAux, if_neg (h b (by simp))]
    rw [ih (b :: acc) (fun c hc => h c (by simp [hc]))]
    simp

theorem splitSegsAux_amp : ∀ (x : List Nat) (acc : List Nat) (t : List Nat),
    (∀ c ∈ x, c ≠ 38) →
    splitSegsAux acc (x ++ 38 :: t) = (acc.reverse ++ x) :: splitSegsAux [] t := by
  intro x
  induction x with
  | nil => intro acc t _; simp [splitSegsAux]
  | cons b rest ih =>
    intro acc t h
    simp only [List.cons_append, splitSegsAux, if_neg (h b (by simp)), List.append_eq]
    rw [ih (b :: acc) t (fun c hc => h c (by simp [hc]))]
    simp

/-- Parsing a serialized pair recovers it (bytes < 256). -/
theorem parsePair_serializePair (p : List Nat × List Nat)
    (hk : ∀ b ∈ p.1, b < 256) (hv : ∀ b ∈ p.2, b < 256) :
    parsePair (serializePair p) = p := by
  unfold parsePair serializePair
  rw [splitFirstAt_append 61 (formEncode p.1) (formEncode p.2)
    (fun c hc => (formEncode_no_sep p.1 hk c hc).2)]
  simp only []
  rw [formDecode_formEncode p.1 hk, formDecode_formEncode p.2 hv]

theorem serializePairs_cons_cons (p q : List Nat × List Nat)
    (rest : List (List Nat × List Nat)) :
    serializePairs (p :: q :: rest) = serializePair p ++ 38 :: serializePairs (q :: rest) := rfl

/-- Splitting a serialized pair list on `&` recovers the serialized pairs. -/
theorem splitSegs_serializePairs : ∀ ps : List (List Nat × List Nat), ps ≠ [] →
    (∀ p ∈ ps, (∀ b ∈ p.1, b < 256) ∧ (∀ b ∈ p.2, b < 256)) →
    splitSegs (serializePairs ps) = ps.map serializePair := by
  intro ps
  induction ps with
  | nil => intro h; exact absurd rfl h
  | cons p rest ih =>
    intro _ hb
    have hp := hb p (by simp)
    have hpair : ∀ c ∈ serializePair p, c ≠ 38 := by
      intro c hc
      unfold serializePair at hc
      rcases List.mem_append.mp hc with h | h
      · exact (formEncode_no_sep p.1 hp.1 c h).1
      · rcases List.mem_cons.mp h with h | h
        · omega
        · exact (formEncode_no_sep p.2 hp.2 c h).1
    cases rest with
    | nil =>
      show splitSegsAux [] (serializePair p) = [serializePair p]
      rw [splitSegsAux_no_amp (serializePair p) [] hpair]
      simp
    | cons q rest2 =>
      rw [serializePairs_cons_cons]
      show splitSegsAux [] (serializePair p ++ 38 :: serializePairs (q :: rest2)) = _
      rw [splitSegsAux_amp (serializePair p) [] (serializePairs (q :: rest2)) hpair]
      simp only [List.reverse_nil, List.nil_append, List.map_cons]
      congr 1
      exact ih (by simp) (fun r hr => hb r (by simp [hr]))

/-- A serialized pair is never the empty segment. -/
theorem serializePair_ne_nil (p : List Nat × List Nat) : serializePair p ≠ [] := by
  unfold serializePair
  simp

/-- Parsing a serialized non-empty pair list recovers it exactly. -/
theorem parseQueryPairs_serializePairs (ps : List (List Nat × List Nat)) (hne : ps ≠ [])
    (hb : ∀ p ∈ ps, (∀ b ∈ p.1, b < 256) ∧ (∀ b ∈ p.2, b < 256)) :
    parseQueryPairs (serializePairs ps) = ps := by
  unfold parseQueryPairs
  rw [show splitSegs (serializePairs ps) = splitSegs (serializePairs ps) from rfl,
    splitSegs_serializePairs ps hne hb]
  rw [List.filter_eq_self.mpr]
  · rw [List.map_map]
    have : ∀ p ∈ ps, (parsePair ∘ serializePair) p = id p := by
      intro p hp
      have := hb p hp
      simpa using parsePair_serializePair p this.1 this.2
    rw [List.map_congr_left this, List.map_id]
  · intro seg hseg
    rcases List.mem_map.mp hseg with ⟨p, _, rfl⟩
    simp [serializePair_ne_nil p, List.isEmpty_iff]

/-- Decoded bytes stay below 256 when input bytes do. -/
theorem pdRun_lt_256 : ∀ f l, (∀ b ∈ l, b < 256) → ∀ c ∈ pdRun f l, c < 256 := by
  intro f
  induction f with
  | zero =>
    intro l _ c hc
    cases l <;> simp [pdRun] at hc
  | succ f ih =>
    intro l hl c hc
    cases l with
    | nil => simp [pdRun] at hc
    | cons b rest =>
      have hrest : ∀ d ∈ rest, d < 256 := fun d hd => hl d (by simp [hd])
      simp only [pdRun] at hc
      by_cases hb : b = 37
      · rw [if_pos hb] at hc
        cases hE : escProbe rest with
        | none =>
          rw [hE] at hc
          have hc2 : c ∈ 37 :: pdRun f rest := hc
          rcases List.mem_cons.mp hc2 with h | h
          · omega
          · exact ih rest hrest c h
        | some p =>
          rw [hE] at hc
          have hc2 : c ∈ p.1 :: pdRun f p.2 := hc
          obtain ⟨e1, e2, x, y, hleq, hx, hy, hp1⟩ := escProbe_some rest p hE
          rcases List.mem_cons.mp hc2 with h | h
          · have := hexVal_lt e1 x hx
            have := hexVal_lt e2 y hy
            omega
          · refine ih p.2 ?_ c h
            intro d hd
            apply hrest
            rw [hleq]
            simp [hd]
      · rw [if_neg hb] at hc
        rcases List.mem_cons.mp hc with h | h
        · exact h ▸ hl b (by simp)
        · exact ih rest hrest c h

theorem formDecode_lt_256 (l : List Nat) (hl : ∀ b ∈ l, b < 256) :
    ∀ c ∈ formDecode l, c < 256 := by
  apply pdRun_lt_256
  intro b hb
  rcases List.mem_map.mp hb with ⟨d, hd, rfl⟩
  have := hl d hd
  unfold plusToSpace
  split <;> omega

theorem splitFirstAt_subset (sep : Nat) : ∀ l : List Nat,
    (∀ c ∈ (splitFirstAt sep l).1, c ∈ l) ∧
    (∀ y, (splitFirstAt sep l).2 = some y → ∀ c ∈ y, c ∈ l) := by
  intro l
  induction l with
  | nil => simp [splitFirstAt]
  | cons b rest ih =>
    by_cases hb : b = sep
    · simp only [splitFirstAt, if_pos hb]
      constructor
      · simp
      · intro y hy c hc
        cases hy
        simp [hc]
    · simp only [splitFirstAt, if_neg hb]
      constructor
      · intro c hc
        rcases List.mem_cons.mp hc with h | h
        · simp [h]
        · simp [ih.1 c h]
      · intro y hy c hc
        simp [ih.2 y hy c hc]

theorem splitSegsAux_subset : ∀ (l acc : List Nat) (s : List Nat),
    s ∈ splitSegsAux acc l → ∀ c ∈ s, c ∈ acc ∨ c ∈ l := by
  intro l
  induction l with
  | nil =>
    intro acc s hs c hc
    simp [splitSegsAux] at hs
    subst hs
    simp at hc
    exact Or.inl hc
  | cons b rest ih =>
    intro acc s hs c hc
    simp only [splitSegsAux] at hs
    by_cases hb : b = 38
    · rw [if_pos hb] at hs
      rcases List.mem_cons.mp hs with h | h
      · subst h
        simp at hc
        exact Or.inl hc
      · rcases ih [] s h c hc with h2 | h2
        · simp at h2
        · exact Or.inr (by simp [h2])
    · rw [if_neg hb] at hs
      rcases ih (b :: acc) s hs c hc with h2 | h2
      · rcases List.mem_cons.mp h2 with h3 | h3
        · exact Or.inr (by simp [h3])
        · exact Or.inl h3
      · exact Or.inr (by simp [h2])

/-- Every parsed pair has bytes below 256 when the query does. -/
theorem parseQueryPairs_lt_256 (q : List Nat) (hq : ∀ b ∈ q, b < 256) :
    ∀ p ∈ parseQueryPairs q, (∀ b ∈ p.1, b < 256) ∧ (∀ b ∈ p.2, b < 256) := by
  intro p hp
  unfold parseQueryPairs at hp
  rcases List.mem_map.mp hp with ⟨seg, hseg, rfl⟩
  have hsegmem : ∀ c ∈ seg, c ∈ q := by
    intro c hc
    have := splitSegsAux_subset q [] seg (List.mem_of_mem_filter hseg) c hc
    simpa using this
  have hseglt : ∀ c ∈ seg, c < 256 := fun c hc => hq c (hsegmem c hc)
  unfold parsePair
  cases hsp : (splitFirstAt 61 seg).2 with
  | none =>
    rw [show splitFirstAt 61 seg = ((splitFirstAt 61 seg).1, none) from by
      rw [← hsp]]
    constructor
    · exact fun b hb => formDecode_lt_256 _
        (fun c hc => hseglt c ((splitFirstAt_subset 61 seg).1 c hc)) b hb
    · intro b hb
      simp [show formDecode [] = [] from rfl] at hb
  | some y =>
    rw [show splitFirstAt 61 seg = ((splitFirstAt 61 seg).1, some y) from by
      rw [← hsp]]
    constructor
    · exact fun b hb => formDecode_lt_256 _
        (fun c hc => hseglt c ((splitFirstAt_subset 61 seg).1 c hc)) b hb
    · exact fun b hb => formDecode_lt_256 _
        (fun c hc => hseglt c ((splitFirstAt_subset 61 seg).2 y hsp c hc)) b hb

/-! ### Ordered-map lemmas (the `BTreeMap` model) -/

theorem bytesLt_irrefl : ∀ l : List Nat, bytesLt l l = false := by
  intro l
  induction l with
  | nil => rfl
  | cons a as2 ih =>
    show (decide (a < a) || (decide (a = a) && bytesLt as2 as2)) = false
    simp [ih]

theorem bytesLt_trans : ∀ a b c : List Nat, bytesLt a b = true → bytesLt b c = true →
    bytesLt a c = true := by
  intro a
  induction a with
  | nil =>
    intro b c hab hbc
    cases b with
    | nil => simp [bytesLt] at hab
    | cons y ys =>
      cases c with
      | nil => simp [bytesLt] at hbc
      | cons z zs => simp [bytesLt]
  | cons x xs ih =>
    intro b c hab hbc
    cases b with
    | nil => simp [bytesLt] at hab
    | cons y ys =>
      cases c with
      | nil => simp [bytesLt] at hbc
      | cons z zs =>
        show (decide (x < z) || (decide (x = z) && bytesLt xs zs)) = true
        have hab2 : x < y ∨ (x = y ∧ bytesLt xs ys = true) := by
          have := hab
          simp [bytesLt] at this
          tauto
        have hbc2 : y < z ∨ (y = z ∧ bytesLt ys zs = true) := by
          have := hbc
          simp [bytesLt] at this
          tauto
        rcases hab2 with h1 | ⟨he1, hl1⟩
        · rcases hbc2 with h2 | ⟨he2, _⟩
          · simp [show x < z by omega]
          · simp [show x < z by omega]
        · rcases hbc2 with h2 | ⟨he2, hl2⟩
          · simp [show x < z by omega]
          · subst he1
            subst he2
            simp [ih ys zs hl1 hl2]

theorem bytesLt_total : ∀ a b : List Nat, bytesLt a b = false → (a == b) = false →
    bytesLt b a = true := by
  intro a
  induction a with
  | nil =>
    intro b hlt hne
    cases b with
    | nil => simp at hne
    | cons y ys => simp [bytesLt] at hlt
  | cons x xs ih =>
    intro b hlt hne
    cases b with
    | nil => simp [bytesLt]
    | cons y ys =>
      have hyx : ¬ x < y := by
        intro h
        have h2 : bytesLt (x :: xs) (y :: ys) = true := by simp [bytesLt, h]
        rw [hlt] at h2
        simp at h2
      have hxs : x = y → bytesLt xs ys = false := by
        intro he
        subst he
        cases hb : bytesLt xs ys
        · rfl
        · exfalso
          have h2 : bytesLt (x :: xs) (x :: ys) = true := by simp [bytesLt, hb]
          rw [hlt] at h2
          simp at h2
      have hne2 : x = y → (xs == ys) = false := by
        intro he
        subst he
        cases hb : (xs == ys)
        · rfl
        · exfalso
          have : xs = ys := by simpa using hb
          subst this
          simp at hne
      by_cases hxy : x = y
      · subst hxy
        simp [bytesLt, ih ys (hxs rfl) (hne2 rfl)]
      · have hyltx : y < x := by omega
        simp [bytesLt, hyltx]

theorem beq_bytes_eq {a b : List Nat} (h : (a == b) = true) : a = b := by
  simpa using h

/-- Key order used for sortedness of the map. -/
def keyLt (p q : List Nat × List Nat) : Prop := bytesLt p.1 q.1 = true

/-- Members of an insertion come from the inserted pair or the map. -/
theorem mem_insertSorted (k v : List Nat) : ∀ ps p, p ∈ insertSorted k v ps →
    p = (k, v) ∨ p ∈ ps := by
  intro ps
  induction ps with
  | nil =>
    intro p hp
    simp [insertSorted] at hp
    exact Or.inl hp
  | cons q rest ih =>
    intro p hp
    unfold insertSorted at hp
    by_cases h1 : bytesLt k q.1 = true
    · rw [if_pos h1] at hp
      rcases List.mem_cons.mp hp with h | h
      · exact Or.inl h
      · exact Or.inr h
    · rw [if_neg h1] at hp
      by_cases h2 : (k == q.1) = true
      · rw [if_pos h2] at hp
        rcases List.mem_cons.mp hp with h | h
        · exact Or.inl h
        · exact Or.inr (by simp [h])
      · rw [if_neg h2] at hp
        rcases List.mem_cons.mp hp with h | h
        · exact Or.inr (by simp [h])
        · rcases ih p h with h3 | h3
          · exact Or.inl h3
          · exact Or.inr (by simp [h3])

/-- Insertion keeps the map key-sorted. -/
theorem pairwise_insertSorted (k v : List Nat) : ∀ ps, ps.Pairwise keyLt →
    (insertSorted k v ps).Pairwise keyLt := by
  intro ps
  induction ps with
  | nil =>
    intro _
    simp [insertSorted, List.pairwise_cons]
  | cons q rest ih =>
    intro hps
    rcases List.pairwise_cons.mp hps with ⟨hq, hrest⟩
    unfold insertSorted
    by_cases h1 : bytesLt k q.1 = true
    · rw [if_pos h1]
      refine List.pairwise_cons.mpr ⟨?_, hps⟩
      intro p hp
      rcases List.mem_cons.mp hp with h | h
      · subst h
        exact h1
      · exact bytesLt_trans k q.1 p.1 h1 (hq p h)
    · rw [if_neg h1]
      by_cases h2 : (k == q.1) = true
      · rw [if_pos h2]
        refine List.pairwise_cons.mpr ⟨?_, hrest⟩
        intro p hp
        have := beq_bytes_eq h2
        rw [show keyLt (k, v) p = (bytesLt k p.1 = true) from rfl, this]
        exact hq p hp
      · rw [if_neg h2]
        refine List.pairwise_cons.mpr ⟨?_, ih hrest⟩
        intro p hp
        rcases mem_insertSorted k v rest p hp with h | h
        · subst h
          exact bytesLt_total k q.1 (by simpa using h1) (by simpa using h2)
        · exact hq p h

/-- Lookup after insertion: the inserted key maps to the new value, other
keys are untouched. -/
theorem assocFind_insertSorted (k v j : List Nat) : ∀ ps,
    assocFind (insertSorted k v ps) j =
      if (k == j) = true then some v else assocFind ps j := by
  intro ps
  induction ps with
  | nil =>
    simp only [insertSorted, assocFind, List.find?]
    by_cases h : (k == j) = true
    · simp [h]
    · simp [h, List.find?]
  | cons q rest ih =>
    unfold insertSorted
    by_cases h1 : bytesLt k q.1 = true
    · rw [if_pos h1]
      by_cases h : (k == j) = true
      · simp [assocFind, List.find?, h]
      · simp only [assocFind, List.find?, h]
        rfl
    · rw [if_neg h1]
      by_cases h2 : (k == q.1) = true
      · rw [if_pos h2]
        have hkq := beq_bytes_eq h2
        by_cases h : (k == j) = true
        · simp [assocFind, List.find?, h]
        · have hq1j : (q.1 == j) = false := by
            rw [← hkq]
            simpa using h
          simp only [assocFind, List.find?, h, hq1j]
          rfl
      · rw [if_neg h2]
        by_cases h : (q.1 == j) = true
        · have hkj : (k == j) = false := by
            have hq := beq_bytes_eq h
            subst hq
            simpa using h2
          simp [assocFind, List.find?, h, hkj]
        · simp only [assocFind, List.find?, h]
          rw [show assocFind (insertSorted k v rest) j =
            (List.find? (fun p => p.1 == j) (insertSorted k v rest)).map (fun p => p.2) from rfl] at ih
          rw [ih]
          rfl

theorem lastVal_nil (j : List Nat) : lastVal [] j = none := rfl

theorem lastVal_cons (p : List Nat × List Nat) (rest : List (List Nat × List Nat))
    (j : List Nat) :
    lastVal (p :: rest) j =
      (lastVal rest j).or (if (p.1 == j) = true then some p.2 else none) := by
  unfold lastVal
  rw [List.reverse_cons, List.find?_append]
  cases hf : rest.reverse.find? (fun r => r.1 == j) with
  | some r => simp [hf]
  | none =>
    by_cases h : (p.1 == j) = true
    · simp [hf, List.find?, h]
    · simp [hf, List.find?, h]

/-- Folding insertions realizes last-write-wins lookup. -/
theorem assocFind_foldl_insert (j : List Nat) : ∀ (l : List (List Nat × List Nat)) m,
    assocFind (l.foldl (fun m2 p => insertSorted p.1 p.2 m2) m) j =
      (lastVal l j).or (assocFind m j) := by
  intro l
  induction l with
  | nil =>
    intro m
    simp [lastVal_nil]
  | cons p rest ih =>
    intro m
    rw [List.foldl_cons, ih (insertSorted p.1 p.2 m), assocFind_insertSorted, lastVal_cons]
    cases lastVal rest j <;> by_cases h : (p.1 == j) = true <;> simp [h]

/-- The conditional fold of `normalize_url` is the plain insert fold over the
kept pairs. -/
theorem foldl_insert_filter : ∀ (l : List (List Nat × List Nat)) m,
    l.foldl (fun m2 p =>
      if dropParams.contains (asciiLower p.1) then m2 else insertSorted p.1 p.2 m2) m =
    (l.filter (fun p => !(dropParams.contains (asciiLower p.1)))).foldl
      (fun m2 p => insertSorted p.1 p.2 m2) m := by
  intro l
  induction l with
  | nil => intro m; rfl
  | cons p rest ih =>
    intro m
    by_cases h : dropParams.contains (asciiLower p.1) = true
    · rw [List.foldl_cons, List.filter_cons, if_pos h]
      have hn : (!dropParams.contains (asciiLower p.1)) = false := by rw [h]; rfl
      rw [hn, if_neg (by simp)]
      exact ih m
    · have hb : dropParams.contains (asciiLower p.1) = false := by
        cases hx : dropParams.contains (asciiLower p.1)
        · rfl
        · exact absurd hx h
      rw [List.foldl_cons, List.filter_cons, if_neg h]
      have hn : (!dropParams.contains (asciiLower p.1)) = true := by rw [hb]; rfl
      rw [hn, if_pos rfl, List.foldl_cons]
      exact ih _

theorem normalizeQueryPairs_eq_foldl (q : List Nat) :
    normalizeQueryPairs q =
      (keptPairs q).foldl (fun m2 p => insertSorted p.1 p.2 m2) [] := by
  unfold normalizeQueryPairs keptPairs
  rw [foldl_insert_filter]

theorem pairwise_foldl_insert : ∀ (l : List (List Nat × List Nat)) m,
    m.Pairwise keyLt →
    (l.foldl (fun m2 p => insertSorted p.1 p.2 m2) m).Pairwise keyLt := by
  intro l
  induction l with
  | nil => intro m hm; exact hm
  | cons p rest ih =>
    intro m hm
    rw [List.foldl_cons]
    exact ih _ (pairwise_insertSorted p.1 p.2 m hm)

/-- The emitted pairs are strictly sorted by (decoded) key. -/
theorem normalizeQueryPairs_sorted (q : List Nat) :
    (normalizeQueryPairs q).Pairwise keyLt := by
  rw [normalizeQueryPairs_eq_foldl]
  exact pairwise_foldl_insert _ [] (by simp)

theorem mem_foldl_insert : ∀ (l : List (List Nat × List Nat)) m p,
    p ∈ l.foldl (fun m2 r => insertSorted r.1 r.2 m2) m → p ∈ m ∨ p ∈ l := by
  intro l
  induction l with
  | nil =>
    intro m p hp
    exact Or.inl hp
  | cons r rest ih =>
    intro m p hp
    rw [List.foldl_cons] at hp
    rcases ih _ p hp with h | h
    · rcases mem_insertSorted r.1 r.2 m p h with h2 | h2
      · exact Or.inr (by simp [h2, Prod.ext_iff])
      · exact Or.inl h2
    · exact Or.inr (by simp [h])

/-- No emitted key lower-cases into the tracking drop-set. -/
theorem normalizeQueryPairs_no_tracking (q : List Nat) :
    ∀ p ∈ normalizeQueryPairs q, dropParams.contains (asciiLower p.1) = false := by
  rw [normalizeQueryPairs_eq_foldl]
  intro p hp
  rcases mem_foldl_insert _ [] p hp with h | h
  · simp at h
  · have := (List.mem_filter.mp h).2
    simpa using this

/-- Every emitted pair is one of the kept input pairs. -/
theorem normalizeQueryPairs_subset (q : List Nat) :
    ∀ p ∈ normalizeQueryPairs q, p ∈ keptPairs q := by
  rw [normalizeQueryPairs_eq_foldl]
  intro p hp
  rcases mem_foldl_insert _ [] p hp with h | h
  · simp at h
  · exact h

/-- Lookup in the emitted map is last-wins lookup over the kept pairs. -/
theorem normalizeQueryPairs_find (q j : List Nat) :
    assocFind (normalizeQueryPairs q) j = lastVal (keptPairs q) j := by
  rw [normalizeQueryPairs_eq_foldl, assocFind_foldl_insert]
  simp [assocFind, List.find?]

/-- Every kept key is present in the emitted map. -/
theorem normalizeQueryPairs_complete (q : List Nat) :
    ∀ p ∈ keptPairs q, ∃ v, assocFind (normalizeQueryPairs q) p.1 = some v := by
  intro p hp
  rw [normalizeQueryPairs_find]
  unfold lastVal
  have hsome : ((keptPairs q).reverse.find? (fun r => r.1 == p.1)).isSome := by
    rw [List.find?_isSome]
    exact ⟨p, by simp [hp], by simp⟩
  rcases Option.isSome_iff_exists.mp hsome with ⟨r, hr⟩
  exact ⟨r.2, by rw [hr]; rfl⟩

theorem insertSorted_append (k v : List Nat) : ∀ m,
    (∀ p ∈ m, bytesLt p.1 k = true) → insertSorted k v m = m ++ [(k, v)] := by
  intro m
  induction m with
  | nil => intro _; rfl
  | cons q rest ih =>
    intro h
    have hq := h q (by simp)
    have h1 : bytesLt k q.1 = false := by
      cases hb : bytesLt k q.1
      · rfl
      · exfalso
        have h2 := bytesLt_trans q.1 k q.1 hq hb
        rw [bytesLt_irrefl] at h2
        simp at h2
    have h2 : (k == q.1) = false := by
      cases hb : (k == q.1)
      · rfl
      · exfalso
        have h3 := beq_bytes_eq hb
        subst h3
        rw [bytesLt_irrefl] at hq
        simp at hq
    unfold insertSorted
    rw [if_neg (by simp [h1]), if_neg (by simp [h2])]
    rw [ih (fun p hp => h p (by simp [hp]))]
    simp

/-- Folding insertions over an already strictly sorted list rebuilds it. -/
theorem foldl_insert_sorted_id : ∀ (l : List (List Nat × List Nat)) m,
    (m ++ l).Pairwise keyLt →
    l.foldl (fun m2 p => insertSorted p.1 p.2 m2) m = m ++ l := by
  intro l
  induction l with
  | nil => intro m _; simp
  | cons p rest ih =>
    intro m hp
    rw [List.foldl_cons]
    have hmp : ∀ r ∈ m, bytesLt r.1 p.1 = true := by
      intro r hr
      exact (List.pairwise_append.mp hp).2.2 r hr p (by simp)
    rw [insertSorted_append p.1 p.2 m hmp]
    have heq : m ++ [(p.1, p.2)] ++ rest = m ++ p :: rest := by simp
    rw [ih (m ++ [(p.1, p.2)]) (by rw [heq]; exact hp)]
    simp

/-- Re-normalizing the emitted pair list reproduces it. -/
theorem normalizeQueryPairs_idem (q : List Nat) (hq : ∀ b ∈ q, b < 256)
    (hne : normalizeQueryPairs q ≠ []) :
    normalizeQueryPairs (serializePairs (normalizeQueryPairs q)) =
      normalizeQueryPairs q := by
  have hbound : ∀ p ∈ normalizeQueryPairs q,
      (∀ b ∈ p.1, b < 256) ∧ (∀ b ∈ p.2, b < 256) := by
    intro p hp
    have hk := normalizeQueryPairs_subset q p hp
    exact parseQueryPairs_lt_256 q hq p (List.mem_filter.mp hk).1
  have hparse := parseQueryPairs_serializePairs (normalizeQueryPairs q) hne hbound
  rw [normalizeQueryPairs_eq_foldl (serializePairs (normalizeQueryPairs q))]
  have hkept : keptPairs (serializePairs (normalizeQueryPairs q)) = normalizeQueryPairs q := by
    unfold keptPairs
    rw [hparse]
    rw [List.filter_eq_self.mpr]
    intro p hp
    have := normalizeQueryPairs_no_tracking q p hp
    simpa using this
  rw [hkept]
  have hid := foldl_insert_sorted_id (normalizeQueryPairs q) []
    (by simpa using normalizeQueryPairs_sorted q)
  simpa using hid

/-- Query rewriting is idempotent on byte strings. -/
theorem normalizeQuery_idem (q : List Nat) (hq : ∀ b ∈ q, b < 256) :
    normalizeQuery (normalizeQuery (some q)) = normalizeQuery (some q) := by
  cases hcase : normalizeQuery (some q) with
  | none =>
    rfl
  | some s =>
    have hne : ¬ (normalizeQueryPairs q).isEmpty = true := by
      intro h
      unfold normalizeQuery at hcase
      simp only [Option.getD_some] at hcase
      rw [if_pos h] at hcase
      exact Option.noConfusion hcase
    have hs : s = serializePairs (normalizeQueryPairs q) := by
      unfold normalizeQuery at hcase
      simp only [Option.getD_some] at hcase
      rw [if_neg hne] at hcase
      exact (Option.some_inj.mp hcase).symm
    rw [hs]
    unfold normalizeQuery
    simp only [Option.getD_some]
    rw [normalizeQueryPairs_idem q hq (by simpa [List.isEmpty_iff] using hne)]
    rw [if_neg hne]

theorem asciiLowerByte_idem (b : Nat) : asciiLowerByte (asciiLowerByte b) = asciiLowerByte b := by
  unfold asciiLowerByte
  split_ifs <;> omega

theorem asciiLower_idem (l : List Nat) : asciiLower (asciiLower l) = asciiLower l := by
  unfold asciiLower
  rw [List.map_map]
  exact List.map_congr_left (fun b _ => by simp [Function.comp, asciiLowerByte_idem])

/-! ## The URL record acted on by `normalize_url` (src/engine/normalization.rs 13-70)

`Url::parse` / `Url::join` of the `url` crate produce a parsed record; the
repository code then clears the fragment, lowercases the host and rewrites
the query, and serializes.  The crate guarantees that parsing the
serialization of a parsed URL restores the record (WHATWG round-trip), so
the second canonicalization pass of claim C7 is modelled as acting on the
same record again. -/

structure UrlRec where
  scheme : List Nat
  userinfo : Option (List Nat)
  host : Option (List Nat)
  port : Option Nat
  path : List Nat
  query : Option (List Nat)
  fragment : Option (List Nat)
deriving DecidableEq

/-- The mutation sequence of `normalize_url` on the joined URL: set the
fragment to none, ASCII-lowercase the host, filter/sort/re-encode the query. -/
def normalizeUrlRec (u : UrlRec) : UrlRec :=
  { u with
    fragment := none
    host := u.host.map asciiLower
    query := normalizeQuery u.query }

/-- Serialization shape of `Url::to_string` for host-bearing URLs. -/
def urlRecBytes (u : UrlRec) : List Nat :=
  u.scheme ++ [58] ++
  (match u.host with
   | none => []
   | some h =>
     [47, 47] ++
     (match u.userinfo with
      | none => []
      | some ui => ui ++ [64]) ++ h ++
     (match u.port with
      | none => []
      | some p => 58 :: strBytes (toString p))) ++
  u.path ++
  (match u.query with
   | none => []
   | some qs => 63 :: qs) ++
  (match u.fragment with
   | none => []
   | some f => 35 :: f)

/-- C7: the canonicalizer is idempotent.  For every joined URL record whose
canonicalization succeeds, canonicalizing the canonical output again (the
`url` crate re-parses its own serialization verbatim) returns the same
record, hence the same URL string byte-for-byte. -/
theorem c7_canonicalizer_idempotent (u : UrlRec)
    (hq : ∀ q, u.query = some q → ∀ b ∈ q, b < 256) :
    normalizeUrlRec (normalizeUrlRec u) = normalizeUrlRec u ∧
    urlRecBytes (normalizeUrlRec (normalizeUrlRec u)) = urlRecBytes (normalizeUrlRec u) := by
  have hhost : (u.host.map asciiLower).map asciiLower = u.host.map asciiLower := by
    cases u.host with
    | none => rfl
    | some h => simp [asciiLower_idem]
  have hquery : normalizeQuery (normalizeQuery u.query) = normalizeQuery u.query := by
    cases hq2 : u.query with
    | none => rfl
    | some q0 => exact normalizeQuery_idem q0 (hq q0 hq2)
  have hrec : normalizeUrlRec (normalizeUrlRec u) = normalizeUrlRec u := by
    simp [normalizeUrlRec, hhost, hquery]
  exact ⟨hrec, congrArg urlRecBytes hrec⟩

/-- A concrete URL record used to witness C7. -/
def sampleUrl : UrlRec :=
  { scheme := strBytes "https"
    userinfo := none
    host := some (strBytes "EXAMPLE.com")
    port := none
    path := strBytes "/product"
    query := some (strBytes "b=2&utm_source=google&a=1")
    fragment := some (strBytes "top") }

/-- Witness for C7 at a concrete input. -/
theorem c7_canonicalizer_idempotent_witness :
    normalizeUrlRec (normalizeUrlRec sampleUrl) = normalizeUrlRec sampleUrl :=
  (c7_canonicalizer_idempotent sampleUrl
    (fun q hq => by injection hq with h2; subst h2; decide)).1

/-- C1 counterexample: the claim that the canonical query contains exactly
the kept pairs of the joined URL, with each kept pair's bytes preserved and
no dropping or merging of duplicate keys, fails.  For the joined query
`a=x&a=y` both pairs are kept (the key `a` is not a tracking key), yet the
canonical query is `a=y`: the duplicate key has been merged (the `BTreeMap`
keeps only the last value).  For the joined query `a=%20` the canonical
query is `a=+`: the kept pair's value bytes are re-encoded, not preserved. -/
theorem c1_counterexample :
    keptPairs (strBytes "a=x&a=y") =
      [(strBytes "a", strBytes "x"), (strBytes "a", strBytes "y")] ∧
    normalizeQuery (some (strBytes "a=x&a=y")) = some (strBytes "a=y") ∧
    parseQueryPairs (strBytes "a=y") ≠
      [(strBytes "a", strBytes "x"), (strBytes "a", strBytes "y")] ∧
    normalizeQuery (some (strBytes "a=%20")) = some (strBytes "a=+") ∧
    strBytes "a=+" ≠ strBytes "a=%20" := by decide

/-- C1 (amended): for every joined query, the canonical query consists of
the parser-decoded pairs whose ASCII-lowercased key is not in the tracking
drop-set, with duplicate keys merged keeping the last value, emitted
strictly sorted by decoded key in byte order and re-encoded in
form-urlencoded form: the emitted map is strictly key-sorted, free of
tracking keys, its lookup is last-wins lookup over the kept pairs, every
kept key is present, and the query string is the serialization of that map
(or absent when no pair remains). -/
theorem c1_canonical_query_pairs (q : List Nat) :
    (normalizeQueryPairs q).Pairwise keyLt ∧
    (∀ p ∈ normalizeQueryPairs q, dropParams.contains (asciiLower p.1) = false) ∧
    (∀ j, assocFind (normalizeQueryPairs q) j = lastVal (keptPairs q) j) ∧
    (∀ p ∈ keptPairs q, ∃ v, assocFind (normalizeQueryPairs q) p.1 = some v) ∧
    normalizeQuery (some q) =
      (if (normalizeQueryPairs q).isEmpty then none
       else some (serializePairs (normalizeQueryPairs q))) :=
  ⟨normalizeQueryPairs_sorted q, normalizeQueryPairs_no_tracking q,
   fun j => normalizeQueryPairs_find q j, normalizeQueryPairs_complete q, rfl⟩

/-- Witness for the amended C1 at a concrete input. -/
theorem c1_canonical_query_pairs_witness :
    dropParams.contains (asciiLower (strBytes "a")) = false ∧
    (∃ v, assocFind (normalizeQueryPairs (strBytes "a=x&a=y")) (strBytes "a") = some v) :=
  ⟨(c1_canonical_query_pairs (strBytes "a=x&a=y")).2.1 (strBytes "a", strBytes "y")
      (by decide),
   (c1_canonical_query_pairs (strBytes "a=x&a=y")).2.2.2.1 (strBytes "a", strBytes "x")
      (by decide)⟩

/-! ## xxh64 (seed 0)

Models the `xxhash_rust::xxh64::xxh64` digest used for Redis key suffixes
(src/engine/circuit_breaker.rs, src/engine/rate_limiter.rs).  64-bit
arithmetic is explicit modulo `2 ^ 64`. -/

def prime1 : Nat := 11400714785074694791
def prime2 : Nat := 14029467366897019727
def prime3 : Nat := 1609587929392839161
def prime4 : Nat := 9650029242287828579
def prime5 : Nat := 2870177450012600261

/-- Truncation to 64 bits. -/
def wrap64 (n : Nat) : Nat := n % (2 ^ 64)

/-- 64-bit left rotation. -/
def rotl64 (x r : Nat) : Nat := wrap64 (x * 2 ^ r) + x / 2 ^ (64 - r)

/-- Little-endian word value of a byte list. -/
def readLE (l : List Nat) : Nat := l.foldr (fun b acc => acc * 256 + b) 0

/-- The xxh64 accumulator round. -/
def xxhRound (acc lane : Nat) : Nat :=
  wrap64 (rotl64 (wrap64 (acc + wrap64 (lane * prime2))) 31 * prime1)

def xxhMergeRound (h v : Nat) : Nat :=
  wrap64 ((h ^^^ xxhRound 0 v) * prime1 + prime4)

def xxhConsume8 (h lane : Nat) : Nat :=
  wrap64 (rotl64 (h ^^^ xxhRound 0 lane) 27 * prime1 + prime4)

def xxhConsume4 (h lane : Nat) : Nat :=
  wrap64 (rotl64 (h ^^^ wrap64 (lane * prime1)) 23 * prime2 + prime3)

def xxhConsume1 (h byte : Nat) : Nat :=
  wrap64 (rotl64 (h ^^^ wrap64 (byte * prime5)) 11 * prime1)

def xxhAvalanche (h0 : Nat) : Nat :=
  let h1 := wrap64 ((h0 ^^^ (h0 / 2 ^ 33)) * prime2)
  let h2 := wrap64 ((h1 ^^^ (h1 / 2 ^ 29)) * prime3)
  h2 ^^^ (h2 / 2 ^ 32)

/-- Tail processing: 8-byte lanes, then one 4-byte lane, then single bytes,
then the avalanche. -/
def xxhFinish : Nat → List Nat → Nat
  | h, b0 :: b1 :: b2 :: b3 :: b4 :: b5 :: b6 :: b7 :: rest =>
    xxhFinish (xxhConsume8 h (readLE [b0, b1, b2, b3, b4, b5, b6, b7])) rest
  | h, b0 :: b1 :: b2 :: b3 :: rest => xxhFinish (xxhConsume4 h (readLE [b0, b1, b2, b3])) rest
  | h, b0 :: rest => xxhFinish (xxhConsume1 h b0) rest
  | h, [] => xxhAvalanche h

/-- The 32-byte stripe loop of the long-input path. -/
def xxhStripes : Nat → Nat → Nat → Nat → List Nat → Nat × Nat × Nat × Nat × List Nat
  | v1, v2, v3, v4,
    b0 :: b1 :: b2 :: b3 :: b4 :: b5 :: b6 :: b7 ::
    b8 :: b9 :: b10 :: b11 :: b12 :: b13 :: b14 :: b15 ::
    b16 :: b17 :: b18 :: b19 :: b20 :: b21 :: b22 :: b23 ::
    b24 :: b25 :: b26 :: b27 :: b28 :: b29 :: b30 :: b31 :: rest =>
    xxhStripes
      (xxhRound v1 (readLE [b0, b1, b2, b3, b4, b5, b6, b7]))
      (xxhRound v2 (readLE [b8, b9, b10, b11, b12, b13, b14, b15]))
      (xxhRound v3 (readLE [b16, b17, b18, b19, b20, b21, b22, b23]))
      (xxhRound v4 (readLE [b24, b25, b26, b27, b28, b29, b30, b31]))
      rest
  | v1, v2, v3, v4, l => (v1, v2, v3, v4, l)

/-- xxh64 with seed 0 over a byte list. -/
def xxh64 (input : List Nat) : Nat :=
  let len := input.length
  if len ≥ 32 then
    match xxhStripes (wrap64 (prime1 + prime2)) prime2 0 (2 ^ 64 - prime1) input with
    | (v1, v2, v3, v4, rest) =>
      let h0 := wrap64 (rotl64 v1 1 + rotl64 v2 7 + rotl64 v3 12 + rotl64 v4 18)
      let h1 := xxhMergeRound h0 v1
      let h2 := xxhMergeRound h1 v2
      let h3 := xxhMergeRound h2 v3
      let h4 := xxhMergeRound h3 v4
      xxhFinish (wrap64 (h4 + len)) rest
  else
    xxhFinish (wrap64 (prime5 + len)) input

/-- `xxh64(domain.as_bytes(), 0)`: the Redis key digest
(`CircuitBreaker::domain_hash`, rate_limiter `compute_domain_hash`). -/
def domainHash (domain : String) : Nat := xxh64 (strBytes domain)

/-! ## Redis state model

A pure snapshot of the keys the gates use.  Values live in fields by Redis
value type; TTLs carry no clock, so every written key is unexpired for the
whole modelled run, and Redis I/O errors are not modelled. -/

structure RedisState where
  ints : List (String × Nat)
  flags : List (String × Bool)
  strs : List (String × String)
  lists : List (String × List String)
deriving DecidableEq

def emptyRedis : RedisState := ⟨[], [], [], []⟩

/-- Redis GET. -/
def getKV {α : Type} (l : List (String × α)) (k : String) : Option α :=
  (l.find? (fun p => p.1 == k)).map (fun p => p.2)

/-- Redis SET (overwrite-or-append). -/
def setKV {α : Type} (k : String) (v : α) : List (String × α) → List (String × α)
  | [] => [(k, v)]
  | p :: rest => if p.1 == k then (k, v) :: rest else p :: setKV k v rest

theorem getKV_setKV_self {α : Type} (k : String) (v : α) :
    ∀ l, getKV (setKV k v l) k = some v := by
  intro l
  induction l with
  | nil => simp [setKV, getKV, List.find?]
  | cons p rest ih =>
    unfold setKV
    by_cases h : (p.1 == k) = true
    · rw [if_pos h]
      simp [getKV, List.find?]
    · rw [if_neg h]
      simp only [getKV, List.find?, h]
      exact ih

/-! ## Circuit breaker (src/engine/circuit_breaker.rs) -/

/-- Failure threshold (`FAILURE_THRESHOLD`). -/
def FAILURE_THRESHOLD : Nat := 3

/-- `failures:{xxh64(domain)}:count`. -/
def failureKey (domain : String) : String :=
  "failures:" ++ toString (domainHash domain) ++ ":count"

/-- `domain_config:{xxh64(domain)}:requires_full_browser`. -/
def configKey (domain : String) : String :=
  "domain_config:" ++ toString (domainHash domain) ++ ":requires_full_browser"

/-- `queue:slow_render_tasks`. -/
def slowRenderQueue : String := "queue:slow_render_tasks"

inductive CircuitState where
  | Closed
  | Open
deriving DecidableEq

structure CircuitCheckResult where
  state : CircuitState
  failure_count : Nat
  requires_full_browser : Bool
deriving DecidableEq

/-- `CircuitBreaker::check`: the sticky flag short-circuits with
`Open`/`threshold + 1`; otherwise the counter decides; without Redis the
circuit is always closed. -/
def cbCheck (redis : Option RedisState) (domain : String) : CircuitCheckResult :=
  match redis with
  | some st =>
    let rfb := (getKV st.flags (configKey domain)).getD false
    if rfb then
      { state := CircuitState.Open, failure_count := FAILURE_THRESHOLD + 1,
        requires_full_browser := true }
    else
      let failure_count := (getKV st.ints (failureKey domain)).getD 0
      { state := if failure_count > FAILURE_THRESHOLD then CircuitState.Open
                 else CircuitState.Closed,
        failure_count := failure_count, requires_full_browser := false }
  | none =>
    { state := CircuitState.Closed, failure_count := 0, requires_full_browser := false }

/-- `CircuitBreaker::trip_circuit`: set the sticky flag. -/
def cbTripCircuit (redis : Option RedisState) (domain : String) : Option RedisState :=
  redis.map (fun st => { st with flags := setKV (configKey domain) true st.flags })

/-- `CircuitBreaker::record_failure`: INCR the counter (TTL not modelled),
trip on strict threshold excess; without Redis return 0. -/
def cbRecordFailure (redis : Option RedisState) (domain : String) : Nat × Option RedisState :=
  match redis with
  | some st =>
    let count := (getKV st.ints (failureKey domain)).getD 0 + 1
    let st1 := { st with ints := setKV (failureKey domain) count st.ints }
    if count > FAILURE_THRESHOLD then (count, cbTripCircuit (some st1) domain)
    else (count, some st1)
  | none => (0, none)

/-- `CircuitBreaker::handoff_to_queue`: RPUSH onto the slow-render list. -/
def cbHandoffToQueue (redis : Option RedisState) (url : String) : Option RedisState :=
  redis.map (fun st =>
    { st with lists :=
        (setKV slowRenderQueue ((getKV st.lists slowRenderQueue).getD [] ++ [url])
          st.lists) })

/-- `CircuitBreaker::handle_failure`: record, then hand off when the count
exceeds the threshold, returning whether a handoff occurred. -/
def cbHandleFailure (redis : Option RedisState) (domain url : String) :
    Bool × Option RedisState :=
  let r := cbRecordFailure redis domain
  if r.1 > FAILURE_THRESHOLD then (true, cbHandoffToQueue r.2 url)
  else (false, r.2)

/-! ## Rate-limit manager Redis gates (src/engine/rate_limiter.rs) -/

def BACKOFF_429_TTL_SECS : Nat := 3600
def BLACKLIST_TTL_SECS : Nat := 86400

/-- `ratelimit:{xxh64(domain)}:bucket`. -/
def ratelimitKey (domain : String) : String :=
  "ratelimit:" ++ toString (domainHash domain) ++ ":bucket"

/-- `blacklist:{xxh64(domain)}`. -/
def blacklistKey (domain : String) : String :=
  "blacklist:" ++ toString (domainHash domain)

inductive RateLimitError where
  | RedisError (msg : String)
  | DomainBlacklisted
  | RateLimitExceeded
  | RobotstxtParseError (msg : String)
deriving DecidableEq

instance : DecidableEq (Except RateLimitError Unit) := fun x y =>
  match x, y with
  | Except.ok (), Except.ok () => isTrue rfl
  | Except.error a, Except.error b =>
    if h : a = b then isTrue (by rw [h]) else isFalse (fun hc => h (by injection hc))
  | Except.ok _, Except.error _ => isFalse (fun hc => Except.noConfusion hc)
  | Except.error _, Except.ok _ => isFalse (fun hc => Except.noConfusion hc)

/-- `RateLimitManager::is_blacklisted`: EXISTS on the blacklist key; false
without Redis. -/
def rlIsBlacklisted (redis : Option RedisState) (domain : String) : Bool :=
  match redis with
  | some st => (getKV st.strs (blacklistKey domain)).isSome
  | none => false

/-- `RateLimitManager::record_429`: SET_EX `backoff` (TTL not modelled). -/
def rlRecord429 (redis : Option RedisState) (domain : String) : Option RedisState :=
  redis.map (fun st => { st with strs := setKV (ratelimitKey domain) "backoff" st.strs })

/-- `RateLimitManager::record_tier2_failure`: SET_EX `blacklisted`. -/
def rlRecordTier2Failure (redis : Option RedisState) (domain : String) : Option RedisState :=
  redis.map (fun st => { st with strs := setKV (blacklistKey domain) "blacklisted" st.strs })

/-- `RateLimitManager::acquire`: error on blacklist, otherwise wait on the
local token bucket and (slow path) sleep the extra delay — both pure time,
always completing — and return Ok.  The 429 backoff key is not consulted. -/
def rlAcquire (redis : Option RedisState) (domain : String) (isSlowPath : Bool) :
    Except RateLimitError Unit :=
  if rlIsBlacklisted redis domain then Except.error RateLimitError.DomainBlacklisted
  else Except.ok ()

/-- C2: starting with no failure counter and no sticky flag for the domain,
four consecutive `handle_failure` calls return false, false, false (counter
1, 2, 3, each at most the threshold 3) and then true, the fourth call also
setting the sticky `requires_full_browser` flag and RPUSHing the URL onto
`queue:slow_render_tasks`. -/
theorem c2_circuit_trips_on_fourth_failure (st : RedisState) (d url : String)
    (h1 : getKV st.ints (failureKey d) = none)
    (h2 : getKV st.flags (configKey d) = none) :
    let r1 := cbHandleFailure (some st) d url
    let r2 := cbHandleFailure r1.2 d url
    let r3 := cbHandleFailure r2.2 d url
    let r4 := cbHandleFailure r3.2 d url
    r1.1 = false ∧ r2.1 = false ∧ r3.1 = false ∧ r4.1 = true ∧
    (r1.2.bind (fun s => getKV s.ints (failureKey d))) = some 1 ∧
    (r2.2.bind (fun s => getKV s.ints (failureKey d))) = some 2 ∧
    (r3.2.bind (fun s => getKV s.ints (failureKey d))) = some 3 ∧
    (1 ≤ FAILURE_THRESHOLD ∧ 2 ≤ FAILURE_THRESHOLD ∧ 3 ≤ FAILURE_THRESHOLD) ∧
    (r4.2.bind (fun s => getKV s.ints (failureKey d))) = some 4 ∧
    (r4.2.bind (fun s => getKV s.flags (configKey d))) = some true ∧
    (r4.2.bind (fun s => getKV s.lists slowRenderQueue)) =
      some ((getKV st.lists slowRenderQueue).getD [] ++ [url]) := by
  norm_num [cbHandleFailure, cbRecordFailure, cbTripCircuit, cbHandoffToQueue,
    h1, h2, getKV_setKV_self, FAILURE_THRESHOLD]


/-- Witness for C2 from the empty Redis state. -/
theorem c2_circuit_trips_on_fourth_failure_witness :
    (cbHandleFailure (cbHandleFailure (cbHandleFailure (cbHandleFailure
        (some emptyRedis) "d.com" "https://d.com/x").2 "d.com" "https://d.com/x").2
        "d.com" "https://d.com/x").2 "d.com" "https://d.com/x").1 = true :=
  (c2_circuit_trips_on_fourth_failure emptyRedis "d.com" "https://d.com/x"
    rfl rfl).2.2.2.1

/-- C9: constructed without a Redis connection every gate is permissive:
`check` reports Closed with count 0 and no sticky flag, `record_failure`
returns 0, `handle_failure` returns false and enqueues nothing,
`is_blacklisted` is false, `acquire` succeeds after the local token-bucket
wait, and `record_429` / `record_tier2_failure` leave no observable state. -/
theorem c9_no_redis_permissive (d url : String) (slow : Bool) :
    cbCheck none d = ⟨CircuitState.Closed, 0, false⟩ ∧
    cbRecordFailure none d = (0, none) ∧
    cbHandleFailure none d url = (false, none) ∧
    rlIsBlacklisted none d = false ∧
    rlAcquire none d slow = Except.ok () ∧
    rlRecord429 none d = none ∧
    rlRecordTier2Failure none d = none :=
  ⟨rfl, rfl, rfl, rfl, rfl, rfl, rfl⟩

/-- C10: whenever the sticky `requires_full_browser` flag is set, `check`
reports Open with `failure_count = FAILURE_THRESHOLD + 1 = 4` and never
reads the stored counter: the result is the same for every counter
content. -/
theorem c10_sticky_flag_short_circuits (st : RedisState) (d : String)
    (h : (getKV st.flags (configKey d)).getD false = true) :
    cbCheck (some st) d = ⟨CircuitState.Open, FAILURE_THRESHOLD + 1, true⟩ ∧
    FAILURE_THRESHOLD + 1 = 4 ∧
    (∀ c : Nat,
      cbCheck (some { st with ints := setKV (failureKey d) c st.ints }) d =
        cbCheck (some st) d) := by
  refine ⟨by simp [cbCheck, h], rfl, ?_⟩
  intro c
  simp [cbCheck, h]

/-- Witness for C10: sticky flag set while the counter holds 100. -/
theorem c10_sticky_flag_short_circuits_witness :
    cbCheck (some ⟨[(failureKey "d.com", 100)], [(configKey "d.com", true)], [], []⟩)
      "d.com" = ⟨CircuitState.Open, FAILURE_THRESHOLD + 1, true⟩ :=
  (c10_sticky_flag_short_circuits
    ⟨[(failureKey "d.com", 100)], [(configKey "d.com", true)], [], []⟩ "d.com"
    (by simp [getKV, List.find?])).1

/-- C4 counterexample: after `record_429("d.com")` the backoff key
`ratelimit:H:bucket = backoff` is present (and, with no clock in the model,
unexpired), yet `acquire("d.com", _)` still returns Ok on both paths —
the claim that acquire never returns Ok while the back-off is in force
fails. -/
theorem c4_counterexample :
    ((rlRecord429 (some emptyRedis) "d.com").bind
      (fun st => getKV st.strs (ratelimitKey "d.com"))) = some "backoff" ∧
    rlAcquire (rlRecord429 (some emptyRedis) "d.com") "d.com" false = Except.ok () ∧
    rlAcquire (rlRecord429 (some emptyRedis) "d.com") "d.com" true = Except.ok () := by
  decide

/-- C4 (amended): `acquire` never consults the 429 backoff key: it returns
Ok exactly when the blacklist key is absent (the local token-bucket wait
and slow-path sleep always complete), while `record_429` does write the
backoff value under `ratelimit:H:bucket`. -/
theorem c4_acquire_ignores_backoff (st : RedisState) (d : String) (slow : Bool) :
    (rlAcquire (some st) d slow = Except.ok () ↔ rlIsBlacklisted (some st) d = false) ∧
    ((rlRecord429 (some st) d).bind (fun s2 => getKV s2.strs (ratelimitKey d))) =
      some "backoff" := by
  constructor
  · unfold rlAcquire
    cases h : rlIsBlacklisted (some st) d with
    | true => simp [h]
    | false => simp [h]
  · simp [rlRecord429, getKV_setKV_self]

/-! ## Network errors and the proxy escalation ladder
(src/network/errors.rs, src/network/proxy.rs) -/

inductive NetworkError where
  | Rquest (msg : String)
  | SoftBan (reason : String)
  | HardBan (status : Nat)
  | EmptyResponse (len : Nat)
  | InvalidUrl
deriving DecidableEq

inductive ProxyTier where
  | Tier0Direct
  | Tier1Datacenter
  | Tier2Residential
deriving DecidableEq

/-- `ProxyManager::should_escalate`: SoftBan, HardBan and EmptyResponse
escalate; everything else does not. -/
def shouldEscalate (e : NetworkError) : Bool :=
  match e with
  | NetworkError.SoftBan _ => true
  | NetworkError.HardBan _ => true
  | NetworkError.EmptyResponse _ => true
  | _ => false

/-- `ProxyManager::fetch_with_escalation`, with `execute_tier` (client
construction, proxy rotation and the network call) abstracted as an attempt
oracle per tier. -/
def fetchWithEscalation (attempt : ProxyTier → Except NetworkError String) :
    Except NetworkError String :=
  match attempt ProxyTier.Tier0Direct with
  | Except.ok body => Except.ok body
  | Except.error e =>
    if !(shouldEscalate e) then Except.error e
    else
      match attempt ProxyTier.Tier1Datacenter with
      | Except.ok body => Except.ok body
      | Except.error e2 =>
        if !(shouldEscalate e2) then Except.error e2
        else attempt ProxyTier.Tier2Residential

/-- C3: a Tier-0 Ok is returned at once; a Tier-0 error escalates to
Tier-1 exactly when it is SoftBan, HardBan or EmptyResponse, and any other
Tier-0 error returns immediately; the same rule carries Tier-1 to Tier-2,
whose result is returned as-is. -/
theorem c3_escalation_ladder :
    (∀ attempt body, attempt ProxyTier.Tier0Direct = Except.ok body →
      fetchWithEscalation attempt = Except.ok body) ∧
    (∀ attempt e, attempt ProxyTier.Tier0Direct = Except.error e →
      shouldEscalate e = false → fetchWithEscalation attempt = Except.error e) ∧
    (∀ attempt e, attempt ProxyTier.Tier0Direct = Except.error e →
      shouldEscalate e = true →
      (∀ body, attempt ProxyTier.Tier1Datacenter = Except.ok body →
        fetchWithEscalation attempt = Except.ok body) ∧
      (∀ e2, attempt ProxyTier.Tier1Datacenter = Except.error e2 →
        shouldEscalate e2 = false → fetchWithEscalation attempt = Except.error e2) ∧
      (∀ e2, attempt ProxyTier.Tier1Datacenter = Except.error e2 →
        shouldEscalate e2 = true →
        fetchWithEscalation attempt = attempt ProxyTier.Tier2Residential)) ∧
    (∀ e, shouldEscalate e = true ↔
      ((∃ r, e = NetworkError.SoftBan r) ∨ (∃ c, e = NetworkError.HardBan c) ∨
       (∃ n, e = NetworkError.EmptyResponse n))) := by
  refine ⟨?_, ?_, ?_, ?_⟩
  · intro attempt body h
    unfold fetchWithEscalation
    rw [h]
  · intro attempt e h he
    unfold fetchWithEscalation
    rw [h]
    simp [he]
  · intro attempt e h he
    refine ⟨?_, ?_, ?_⟩
    · intro body h1
      unfold fetchWithEscalation
      rw [h, h1]
      simp [he]
    · intro e2 h1 he2
      unfold fetchWithEscalation
      rw [h, h1]
      simp [he, he2]
    · intro e2 h1 he2
      unfold fetchWithEscalation
      rw [h, h1]
      simp [he, he2]
  · intro e
    cases e <;> simp [shouldEscalate]

/-- A concrete attempt oracle used to witness C3: Tier-0 hard-bans, Tier-1
fails with a non-escalation transport error. -/
def sampleAttempt : ProxyTier → Except NetworkError String
  | ProxyTier.Tier0Direct => Except.error (NetworkError.HardBan 403)
  | ProxyTier.Tier1Datacenter => Except.error (NetworkError.Rquest "connection refused")
  | ProxyTier.Tier2Residential => Except.ok "unreached"

/-- Witness for C3: the Tier-1 transport error surfaces without a Tier-2
attempt. -/
theorem c3_escalation_ladder_witness :
    fetchWithEscalation sampleAttempt =
      Except.error (NetworkError.Rquest "connection refused") :=
  ((c3_escalation_ladder.2.2.1 sampleAttempt (NetworkError.HardBan 403) rfl rfl).2.1
    (NetworkError.Rquest "connection refused") rfl rfl)

/-! ## Ban classification (src/network/client.rs `FastClient::fetch`) -/

/-- The alternatives of the soft-ban title regex, in alternation order. -/
def softBanTitlePhrases : List String :=
  ["Just a moment", "Attention Required", "Security Check", "Access Denied",
   "Cloudflare", "Captcha"]

/-- The literal body-substring trigger list, in iteration order. -/
def bodySignatures : List String :=
  ["captcha-delivery", "cf-turnstile", "datadome", "challenge-platform"]

/-- Case-insensitive (ASCII fold, as all phrases are ASCII) prefix test. -/
def ciHasPrefix (phrase body : List Char) : Bool :=
  (phrase.map Char.toLower).isPrefixOf (body.map Char.toLower)

/-- `str::contains` on character lists. -/
def containsSeq : List Char → List Char → Bool
  | needle, [] => needle.isEmpty
  | needle, c :: rest => needle.isPrefixOf (c :: rest) || containsSeq needle rest

/-- The first regex alternative matching at this position, with the
matched slice in its original casing. -/
def titleMatchAt (body : List Char) : Option (List Char) :=
  (softBanTitlePhrases.find? (fun p => ciHasPrefix p.toList body)).map
    (fun p => body.take p.toList.length)

/-- `Regex::find` for the case-insensitive alternation of the title
phrases: leftmost match wins, the first alternative at that position. -/
def findTitleTrigger : List Char → Option (List Char)
  | [] => none
  | c :: rest =>
    match titleMatchAt (c :: rest) with
    | some cap => some cap
    | none => findTitleTrigger rest

/-- First matching body signature, in list order. -/
def firstBodySignature (body : List Char) : Option String :=
  bodySignatures.find? (fun sg => containsSeq sg.toList body)

/-- `FastClient::detect_soft_ban`: the title regex is consulted before the
literal body signatures. -/
def detectSoftBan (body : List Char) : Except NetworkError Unit :=
  match findTitleTrigger body with
  | some cap => Except.error (NetworkError.SoftBan ("Title Trigger: " ++ String.mk cap))
  | none =>
    match firstBodySignature body with
    | some sg => Except.error (NetworkError.SoftBan ("Body Trigger: " ++ sg))
    | none => Except.ok ()

/-- `StatusCode::is_success` (2xx). -/
def isSuccessStatus (s : Nat) : Bool := decide (200 ≤ s) && decide (s < 300)

/-- The classification sequence of `FastClient::fetch` once the response
(status, body) is in hand: 403/429 hard-ban before the body is read, other
non-2xx surface as transport errors, short bodies (byte length < 500) are
EmptyResponse, then the soft-ban rules, else Ok. -/
def fastClientClassify (status : Nat) (body : String) : Except NetworkError String :=
  if status = 403 ∨ status = 429 then Except.error (NetworkError.HardBan status)
  else if !(isSuccessStatus status) then
    Except.error (NetworkError.Rquest ("HTTP status " ++ toString status))
  else if body.utf8ByteSize < 500 then
    Except.error (NetworkError.EmptyResponse body.utf8ByteSize)
  else
    match detectSoftBan body.toList with
    | Except.error e => Except.error e
    | Except.ok () => Except.ok body

theorem titleMatchAt_some (body cap : List Char) (h : titleMatchAt body = some cap) :
    ∃ p, p ∈ softBanTitlePhrases ∧ ciHasPrefix p.toList body = true ∧
      cap = body.take p.toList.length := by
  unfold titleMatchAt at h
  cases hf : softBanTitlePhrases.find? (fun p => ciHasPrefix p.toList body) with
  | none =>
    rw [hf] at h
    exact absurd h (by simp)
  | some p =>
    rw [hf] at h
    simp only [Option.map_some'] at h
    have hpred := List.find?_some hf
    exact ⟨p, List.mem_of_find?_eq_some hf, by simpa using hpred,
      (Option.some_inj.mp h).symm⟩

theorem titleMatchAt_none (body : List Char) (h : titleMatchAt body = none) :
    ∀ p ∈ softBanTitlePhrases, ciHasPrefix p.toList body = false := by
  unfold titleMatchAt at h
  cases hf : softBanTitlePhrases.find? (fun p => ciHasPrefix p.toList body) with
  | none =>
    intro p hp
    have := List.find?_eq_none.mp hf p hp
    simpa using this
  | some p =>
    rw [hf] at h
    simp at h

/-- The scanner finds a title trigger exactly when some phrase occurs
case-insensitively in the body. -/
theorem findTitleTrigger_isSome : ∀ l : List Char,
    (findTitleTrigger l).isSome =
      softBanTitlePhrases.any
        (fun p => containsSeq (p.toList.map Char.toLower) (l.map Char.toLower)) := by
  intro l
  induction l with
  | nil => decide
  | cons c rest ih =>
    unfold findTitleTrigger
    cases hm : titleMatchAt (c :: rest) with
    | some cap =>
      show (some cap).isSome = _
      obtain ⟨p, hmem, hpre, _⟩ := titleMatchAt_some (c :: rest) cap hm
      have hany : softBanTitlePhrases.any
          (fun q => containsSeq (q.toList.map Char.toLower)
            ((c :: rest).map Char.toLower)) = true := by
        rw [List.any_eq_true]
        refine ⟨p, hmem, ?_⟩
        show containsSeq (p.toList.map Char.toLower)
          (Char.toLower c :: rest.map Char.toLower) = true
        unfold containsSeq
        unfold ciHasPrefix at hpre
        simp only [List.map_cons] at hpre
        rw [hpre]
        simp
      rw [hany]
      rfl
    | none =>
      show (findTitleTrigger rest).isSome = _
      have hnone := titleMatchAt_none (c :: rest) hm
      rw [ih]
      rw [Bool.eq_iff_iff, List.any_eq_true, List.any_eq_true]
      constructor
      · rintro ⟨p, hpm, hpc⟩
        refine ⟨p, hpm, ?_⟩
        show containsSeq (p.toList.map Char.toLower)
          (Char.toLower c :: rest.map Char.toLower) = true
        unfold containsSeq
        rw [hpc]
        simp
      · rintro ⟨p, hpm, hpc⟩
        refine ⟨p, hpm, ?_⟩
        have hpre := hnone p hpm
        unfold ciHasPrefix at hpre
        simp only [List.map_cons] at hpre
        have hpc2 : containsSeq (p.toList.map Char.toLower)
            (Char.toLower c :: rest.map Char.toLower) = true := hpc
        unfold containsSeq at hpc2
        rw [Bool.or_eq_true] at hpc2
        rcases hpc2 with h | h
        · rw [hpre] at h
          simp at h
        · exact h

/-- C6: classification applies its rules in a fixed order: status 403 or
429 yields HardBan before the body is considered; for any successful
status a body shorter than 500 bytes yields EmptyResponse even when a
soft-ban trigger is present; the title-regex rule is consulted before the
literal body-substring rule; a body triggering none of these yields Ok.
The final conjunct ties the title matcher to the independent property
"some phrase occurs case-insensitively in the body". -/
theorem c6_classification_order (status : Nat) (body : String) :
    (fastClientClassify 403 body = Except.error (NetworkError.HardBan 403) ∧
     fastClientClassify 429 body = Except.error (NetworkError.HardBan 429)) ∧
    (isSuccessStatus status = true → body.utf8ByteSize < 500 →
      fastClientClassify status body =
        Except.error (NetworkError.EmptyResponse body.utf8ByteSize)) ∧
    (∀ cap, isSuccessStatus status = true → 500 ≤ body.utf8ByteSize →
      findTitleTrigger body.toList = some cap →
      fastClientClassify status body =
        Except.error (NetworkError.SoftBan ("Title Trigger: " ++ String.mk cap))) ∧
    (∀ sg, isSuccessStatus status = true → 500 ≤ body.utf8ByteSize →
      findTitleTrigger body.toList = none →
      firstBodySignature body.toList = some sg →
      fastClientClassify status body =
        Except.error (NetworkError.SoftBan ("Body Trigger: " ++ sg))) ∧
    (isSuccessStatus status = true → 500 ≤ body.utf8ByteSize →
      findTitleTrigger body.toList = none →
      firstBodySignature body.toList = none →
      fastClientClassify status body = Except.ok body) ∧
    ((findTitleTrigger body.toList).isSome =
      softBanTitlePhrases.any
        (fun p => containsSeq (p.toList.map Char.toLower)
          (body.toList.map Char.toLower))) := by
  have hstatus : isSuccessStatus status = true → ¬(status = 403 ∨ status = 429) := by
    intro hs
    unfold isSuccessStatus at hs
    rw [Bool.and_eq_true, decide_eq_true_eq, decide_eq_true_eq] at hs
    omega
  refine ⟨⟨?_, ?_⟩, ?_, ?_, ?_, ?_, findTitleTrigger_isSome body.toList⟩
  · unfold fastClientClassify
    rw [if_pos (Or.inl rfl)]
  · unfold fastClientClassify
    rw [if_pos (Or.inr rfl)]
  · intro hs hlen
    unfold fastClientClassify
    rw [if_neg (hstatus hs), hs]
    simp only [Bool.not_true, Bool.false_eq_true, if_false, if_pos hlen]
  · intro cap hs hlen hcap
    unfold fastClientClassify
    rw [if_neg (hstatus hs), hs]
    simp only [Bool.not_true, Bool.false_eq_true, if_false,
      if_neg (by omega : ¬ body.utf8ByteSize < 500)]
    unfold detectSoftBan
    rw [hcap]
  · intro sg hs hlen hcap hsig
    unfold fastClientClassify
    rw [if_neg (hstatus hs), hs]
    simp only [Bool.not_true, Bool.false_eq_true, if_false,
      if_neg (by omega : ¬ body.utf8ByteSize < 500)]
    unfold detectSoftBan
    rw [hcap, hsig]
  · intro hs hlen hcap hsig
    unfold fastClientClassify
    rw [if_neg (hstatus hs), hs]
    simp only [Bool.not_true, Bool.false_eq_true, if_false,
      if_neg (by omega : ¬ body.utf8ByteSize < 500)]
    unfold detectSoftBan
    rw [hcap, hsig]

/-- A long body exhibiting a title trigger ahead of a body signature. -/
def sampleBanBody : String := "Captcha datadome " ++ String.mk (List.replicate 500 'z')

set_option maxRecDepth 100000 in
/-- Witness for C6: the title rule fires on a long body that also carries a
body signature, and a short success body is EmptyResponse. -/
theorem c6_classification_order_witness :
    fastClientClassify 200 sampleBanBody =
      Except.error (NetworkError.SoftBan ("Title Trigger: " ++ String.mk "Captcha".toList)) ∧
    fastClientClassify 200 "short" =
      Except.error (NetworkError.EmptyResponse ("short" : String).utf8ByteSize) :=
  ⟨(c6_classification_order 200 sampleBanBody).2.2.1 "Captcha".toList
      (by decide) (by decide) (by decide),
   (c6_classification_order 200 "short").2.1 (by decide) (by decide)⟩

/-! ## Robots crawl-delay extraction
(src/engine/rate_limiter.rs `RobotstxtParser::extract_crawl_delay`)

Rust `&str` line and slice operations are modelled structurally on
character lists (`trim` folds the ASCII whitespace of the inputs in scope;
Unicode-only whitespace is not modelled). -/

def DEFAULT_CRAWL_DELAY_MS : Nat := 1000
def SLOW_PATH_MULTIPLIER : Nat := 2

structure CrawlDelayConfig where
  standard_delay_ms : Nat
  slow_path_delay_ms : Nat
deriving DecidableEq

/-- The Chrome 120 user agent of `IdentityProfile::generate_chrome_120`. -/
def chromeUserAgent : String :=
  "Mozilla/5.0 (Windows NT 10.0; Win64; x64) AppleWebKit/537.36 (KHTML, like Gecko) Chrome/120.0.6099.109 Safari/537.36"

/-- `str::trim` on characters. -/
def trimChars (l : List Char) : List Char :=
  ((l.dropWhile Char.isWhitespace).reverse.dropWhile Char.isWhitespace).reverse

/-- `str::split(sep)`: all separator-delimited pieces, empties included. -/
def splitOnCharAux (sep : Char) (acc : List Char) : List Char → List (List Char)
  | [] => [acc.reverse]
  | c :: rest =>
    if c = sep then acc.reverse :: splitOnCharAux sep [] rest
    else splitOnCharAux sep (c :: acc) rest

def splitOnChar (sep : Char) (l : List Char) : List (List Char) :=
  splitOnCharAux sep [] l

/-- Value of an all-digit character run (empty runs count as zero; callers
guard emptiness). -/
def digitsVal? (l : List Char) : Option Nat :=
  if l.all Char.isDigit then
    some (l.foldl (fun a c => a * 10 + (c.toNat - 48)) 0)
  else none

/-- The exact value of a plain decimal literal: `(-1)^neg * (intPart +
fracNum / 10^fracDigits)`. -/
structure DecimalVal where
  neg : Bool
  intPart : Nat
  fracNum : Nat
  fracDigits : Nat
deriving DecidableEq

/-- Models `str::parse::<f64>` on plain decimal literals (optional sign,
digits, optional fraction), as its exact decimal value.  Scientific
notation, `inf` and `nan` are not modelled; binary f64 rounding is not
modelled (the value is exact). -/
def parseRustF64 (s : List Char) : Option DecimalVal :=
  let signed : Bool × List Char :=
    match s with
    | '-' :: rest => (true, rest)
    | '+' :: rest => (false, rest)
    | _ => (false, s)
  match splitOnChar '.' signed.2 with
  | [ip] =>
    if ip.isEmpty then none
    else (digitsVal? ip).map (fun n => ⟨signed.1, n, 0, 0⟩)
  | [ip, fp] =>
    if ip.isEmpty && fp.isEmpty then none
    else
      match digitsVal? ip, digitsVal? fp with
      | some i, some f => some ⟨signed.1, i, f, fp.length⟩
      | _, _ => none
  | _ => none

/-- `(delay * 1000.0) as u64`: a negative value saturates to 0 and an
overflowing one to the maximum; otherwise the cast truncates, and for
`v ≥ 0` the floor of `(i + f/10^k) * 1000` is `i * 1000 + (f * 1000) /
10^k` with Nat (floor) division. -/
def delayToMs (v : DecimalVal) : Nat :=
  if v.neg then 0
  else min (v.intPart * 1000 + v.fracNum * 1000 / 10 ^ v.fracDigits) (2 ^ 64 - 1)

/-- A line the scan skips: blank after trimming, or a comment. -/
def robotsLineSkip (rawLine : List Char) : Bool :=
  (trimChars rawLine).isEmpty || ("#".toList).isPrefixOf (trimChars rawLine)

/-- The matching-block flag after a line: `User-agent:` lines set it to
"wildcard, or the configured UA contains the declared agent (case-folded)";
other lines keep it. -/
def robotsLineBlock (userAgent rawLine : List Char) (b : Bool) : Bool :=
  let line := trimChars rawLine
  if ("user-agent:".toList).isPrefixOf (line.map Char.toLower) then
    let agent := trimChars (line.drop 11)
    agent == "*".toList ||
      containsSeq (agent.map Char.toLower) (userAgent.map Char.toLower)
  else b

/-- Whether a (trimmed) line is a `Crawl-delay:` directive. -/
def isCrawlDelayLine (rawLine : List Char) : Bool :=
  ("crawl-delay:".toList).isPrefixOf ((trimChars rawLine).map Char.toLower)

/-- The millisecond value parsed from a `Crawl-delay` line, when the piece
after the first `:` parses as f64: `(seconds * 1000) as u64`. -/
def lineDelayVal (rawLine : List Char) : Option Nat :=
  match (splitOnChar ':' (trimChars rawLine)).get? 1 with
  | some ds =>
    match parseRustF64 (trimChars ds) with
    | some v => some (delayToMs v)
    | none => none
  | none => none

/-- One line of the `extract_crawl_delay` scan: skip blank and `#` lines,
update the matching-block flag, and on a `Crawl-delay:` line inside a
matching block overwrite the found value when the number parses (a parse
failure keeps the previous value). -/
def robotsLineStep (userAgent : List Char) (st : Bool × Option Nat)
    (rawLine : List Char) : Bool × Option Nat :=
  if robotsLineSkip rawLine then st
  else
    let inBlock := robotsLineBlock userAgent rawLine st.1
    (inBlock,
      if inBlock && isCrawlDelayLine rawLine then (lineDelayVal rawLine).or st.2
      else st.2)

/-- `RobotstxtParser::extract_crawl_delay`. -/
def extractCrawlDelay (userAgent robots : String) : Nat :=
  ((((splitOnChar (Char.ofNat 10) robots.toList)).foldl
      (robotsLineStep userAgent.toList) (false, none)).2).getD
    DEFAULT_CRAWL_DELAY_MS

/-- `RobotstxtParser::parse_crawl_delay`. -/
def robotsParseCrawlDelay (userAgent robots : String) : CrawlDelayConfig :=
  let ms := extractCrawlDelay userAgent robots
  ⟨ms, ms * SLOW_PATH_MULTIPLIER⟩

/-- The parsed `Crawl-delay` values (in milliseconds) on lines inside
matching agent blocks, in file order: the reference list for claim C5. -/
def crawlDelayCandidates (userAgent : List Char) :
    List (List Char) → Bool → List Nat
  | [], _ => []
  | rawLine :: rest, b =>
    if robotsLineSkip rawLine then crawlDelayCandidates userAgent rest b
    else
      let inBlock := robotsLineBlock userAgent rawLine b
      (if inBlock && isCrawlDelayLine rawLine then (lineDelayVal rawLine).toList
       else []) ++ crawlDelayCandidates userAgent rest inBlock

/-- The scan keeps the last candidate (later writes overwrite). -/
theorem foldl_robotsLineStep_eq (ua : List Char) : ∀ (lines : List (List Char))
    (b : Bool) (acc : Option Nat),
    (lines.foldl (robotsLineStep ua) (b, acc)).2 =
      ((crawlDelayCandidates ua lines b).getLast?).or acc := by
  intro lines
  induction lines with
  | nil =>
    intro b acc
    simp [crawlDelayCandidates]
  | cons rawLine rest ih =>
    intro b acc
    rw [List.foldl_cons]
    by_cases hskip : robotsLineSkip rawLine = true
    · have hstep : robotsLineStep ua (b, acc) rawLine = (b, acc) := by
        unfold robotsLineStep
        rw [if_pos hskip]
      have hcand : crawlDelayCandidates ua (rawLine :: rest) b =
          crawlDelayCandidates ua rest b := by
        simp only [crawlDelayCandidates]
        rw [if_pos hskip]
      rw [hstep, ih, hcand]
    · have hstep : robotsLineStep ua (b, acc) rawLine =
          (robotsLineBlock ua rawLine b,
           if robotsLineBlock ua rawLine b && isCrawlDelayLine rawLine then
             (lineDelayVal rawLine).or acc
           else acc) := by
        unfold robotsLineStep
        rw [if_neg hskip]
      have hcand : crawlDelayCandidates ua (rawLine :: rest) b =
          (if robotsLineBlock ua rawLine b && isCrawlDelayLine rawLine then
            (lineDelayVal rawLine).toList
           else []) ++ crawlDelayCandidates ua rest (robotsLineBlock ua rawLine b) := by
        simp only [crawlDelayCandidates]
        rw [if_neg hskip]
      rw [hstep, ih, hcand, List.getLast?_append]
      by_cases hcd : (robotsLineBlock ua rawLine b && isCrawlDelayLine rawLine) = true
      · rw [if_pos hcd, if_pos hcd]
        cases hld : lineDelayVal rawLine with
        | none => simp
        | some v =>
          rw [Option.or_assoc]
          simp
      · rw [if_neg hcd, if_neg hcd]
        simp

set_option maxRecDepth 100000 in
/-- C5 counterexample: with two `Crawl-delay` lines in the same matching
wildcard block (2 s then 5 s), extraction yields 5000 ms — the later line
overwrites the earlier one — while the claim requires the first value
(2000 ms) to win. -/
theorem c5_counterexample :
    extractCrawlDelay chromeUserAgent
      "User-agent: *\nCrawl-delay: 2\nCrawl-delay: 5" = 5000 ∧
    (5000 : Nat) ≠ 2000 := by
  constructor
  · decide
  · decide

/-- C5 (amended): crawl-delay extraction takes the LAST `Crawl-delay` value
appearing inside a matching agent block (wildcard or substring match of the
configured user agent), each value converted by seconds x 1000 to
milliseconds; when no matching value exists the default 1000 ms is used,
and the slow-path delay is twice the standard delay. -/
theorem c5_crawl_delay_last_wins (ua robots : String) :
    extractCrawlDelay ua robots =
      ((crawlDelayCandidates ua.toList
        (splitOnChar (Char.ofNat 10) robots.toList) false).getLast?).getD
        DEFAULT_CRAWL_DELAY_MS ∧
    DEFAULT_CRAWL_DELAY_MS = 1000 ∧
    robotsParseCrawlDelay ua robots =
      ⟨extractCrawlDelay ua robots,
       extractCrawlDelay ua robots * SLOW_PATH_MULTIPLIER⟩ := by
  refine ⟨?_, rfl, rfl⟩
  unfold extractCrawlDelay
  rw [foldl_robotsLineStep_eq]
  simp

/-! ## Density routing (src/engine/density.rs)

The `scraper` HTML parse is abstracted into the document statistics that
`compute` consumes; f64 arithmetic is modelled by exact rationals. -/

/-- The statistics `DensityMetrics::compute` extracts from the parsed
document: whitespace-separated word count of the body text, byte length of
the re-serialized root element, trimmed byte lengths of body and anchor
text, and the presence of an `article`/`main` element. -/
structure DocStats where
  wordsInBody : Nat
  htmlLen : Nat
  totalTextLen : Nat
  linkTextLen : Nat
  hasArticleOrMain : Bool
deriving DecidableEq

def SLOW_PATH_THRESHOLD : ℚ := 0.48
def TEXT_DENSITY_WEIGHT : ℚ := 0.4
def LINK_DENSITY_WEIGHT : ℚ := 0.2
def TAG_SCORE_WEIGHT : ℚ := 0.2
def HIGH_VALUE_TAG_SCORE : ℚ := 1.5
def LOW_VALUE_TAG_SCORE : ℚ := 0.5

inductive RoutingPath where
  | Fast
  | Slow
deriving DecidableEq

/-- `compute_text_density`: `min((words * 10) / html_len, 1)`, 0 when the
serialized document is empty. -/
def compute_text_density (d : DocStats) : ℚ :=
  if d.htmlLen = 0 then 0
  else min ((d.wordsInBody * 10 : ℚ) / (d.htmlLen : ℚ)) 1

/-- `compute_link_density`: `1 - min(link_text / total_text, 1)`, 0 when
there is no text (the inversion is intentional). -/
def compute_link_density (d : DocStats) : ℚ :=
  if d.totalTextLen = 0 then 0
  else 1 - min ((d.linkTextLen : ℚ) / (d.totalTextLen : ℚ)) 1

/-- `compute_tag_score`: 1.5 with an `article`/`main` element, else 0.5. -/
def compute_tag_score (d : DocStats) : ℚ :=
  if d.hasArticleOrMain then HIGH_VALUE_TAG_SCORE else LOW_VALUE_TAG_SCORE

/-- The composite score of `DensityMetrics::compute`. -/
def densityFinalScore (d : DocStats) : ℚ :=
  TEXT_DENSITY_WEIGHT * compute_text_density d +
    LINK_DENSITY_WEIGHT * compute_link_density d +
    TAG_SCORE_WEIGHT * compute_tag_score d

/-- The routing decision of `DensityMetrics::compute`. -/
def densityRouting (d : DocStats) : RoutingPath :=
  if densityFinalScore d < SLOW_PATH_THRESHOLD then RoutingPath.Slow
  else RoutingPath.Fast

/-- C8: for every document the composite score lies in [0, 0.9], and
routing is Fast exactly when the score is at least the 0.48 threshold
(strictly below routes Slow); the statistics of the empty body
`<html><body></body></html>` (0 words, no text, no article tag) route
Slow. -/
theorem c8_density_score_bounds (d : DocStats) :
    0 ≤ densityFinalScore d ∧ densityFinalScore d ≤ 9 / 10 ∧
    (densityRouting d = RoutingPath.Fast ↔
      SLOW_PATH_THRESHOLD ≤ densityFinalScore d) ∧
    SLOW_PATH_THRESHOLD = 12 / 25 ∧
    densityRouting ⟨0, 39, 0, 0, false⟩ = RoutingPath.Slow := by
  have htd : 0 ≤ compute_text_density d ∧ compute_text_density d ≤ 1 := by
    unfold compute_text_density
    split_ifs with h
    · norm_num
    · constructor
      · apply le_min
        · positivity
        · norm_num
      · exact min_le_right _ _
  have hld : 0 ≤ compute_link_density d ∧ compute_link_density d ≤ 1 := by
    unfold compute_link_density
    split_ifs with h
    · norm_num
    · have hmin0 : 0 ≤ min ((d.linkTextLen : ℚ) / (d.totalTextLen : ℚ)) 1 := by
        apply le_min
        · positivity
        · norm_num
      have hmin1 : min ((d.linkTextLen : ℚ) / (d.totalTextLen : ℚ)) 1 ≤ 1 :=
        min_le_right _ _
      constructor
      · linarith
      · linarith
  have hts : compute_tag_score d = 1 / 2 ∨ compute_tag_score d = 3 / 2 := by
    unfold compute_tag_score
    split_ifs
    · right
      norm_num [HIGH_VALUE_TAG_SCORE]
    · left
      norm_num [LOW_VALUE_TAG_SCORE]
  have hbounds : 0 ≤ densityFinalScore d ∧ densityFinalScore d ≤ 9 / 10 := by
    unfold densityFinalScore TEXT_DENSITY_WEIGHT LINK_DENSITY_WEIGHT TAG_SCORE_WEIGHT
    rcases hts with h | h <;> rw [h] <;> constructor <;> norm_num <;> linarith [htd.1, htd.2, hld.1, hld.2]
  refine ⟨hbounds.1, hbounds.2, ?_, by norm_num [SLOW_PATH_THRESHOLD], ?_⟩
  · unfold densityRouting
    split_ifs with h
    · constructor
      · intro hc
        exact absurd hc (by simp)
      · intro hc
        linarith
    · constructor
      · intro _
        linarith [not_lt.mp h]
      · intro _
        rfl
  · unfold densityRouting densityFinalScore compute_text_density compute_link_density
      compute_tag_score
    norm_num [SLOW_PATH_THRESHOLD, TEXT_DENSITY_WEIGHT, LINK_DENSITY_WEIGHT,
      TAG_SCORE_WEIGHT, LOW_VALUE_TAG_SCORE]

end TitanFlow
